import Mathlib

/-!
Verification development for the Pyro probabilistic-modeling tutorial notebooks.

The notebooks present two stochastic gradient estimators for
∇φ E_{qφ(z)}[ fφ(z) ]:

* the pathwise (reparameterization) estimator: draw ε from a fixed base
  distribution q(ε), push it through a parameter-dependent transform gφ, and
  differentiate the composed cost t ↦ f t (g t ε);
* the score-function (REINFORCE) estimator:
  (∇φ log qφ(z)) · fφ(z) + ∇φ fφ(z) with z drawn from qφ.

We embed the mathematics over finitely supported weighted distributions,
represented as lists of (weight, value) pairs, so every expectation is a
finite sum and the interchange of derivative and expectation is exact.
The tutorial's toy models (the `weather` stochastic function and the
`Markov_chain` example of Tutorial 1) are embedded as pure functions of the
random draws that the Pyro primitives would supply.
-/

namespace PyroTutorial

noncomputable section

/-- Expectation of `h` under a finitely supported weighted distribution,
represented as a list of (weight, value) pairs. -/
def expect (d : List (ℝ × ℝ)) (h : ℝ → ℝ) : ℝ :=
  (d.map (fun p => p.1 * h p.2)).sum

/-- Total mass of a weighted distribution. -/
def mass (d : List (ℝ × ℝ)) : ℝ :=
  (d.map (fun p => p.1)).sum

/-- The weighted distribution over a fixed finite support `zs` determined by a
parameterized density `q` at parameter `φ`. -/
def densityDist (zs : List ℝ) (q : ℝ → ℝ → ℝ) (φ : ℝ) : List (ℝ × ℝ) :=
  zs.map (fun z => (q φ z, z))

/-- Expectation of `h` under the density `q` at parameter `φ` over support `zs`. -/
def dexpect (zs : List ℝ) (q : ℝ → ℝ → ℝ) (φ : ℝ) (h : ℝ → ℝ) : ℝ :=
  expect (densityDist zs q φ) h

/-- Pathwise (reparameterization) estimator at noise ε: the derivative in the
parameter of the composed cost t ↦ f t (g t ε), as in the SVI-III notebook
identity ∇φ E_{q(ε)}[ f(g(ε)) ] = E_{q(ε)}[ ∇φ f(g(ε)) ]. -/
def pathwiseEstimator (f g : ℝ → ℝ → ℝ) (φ ε : ℝ) : ℝ :=
  deriv (fun t => f t (g t ε)) φ

/-- Score-function (REINFORCE) estimator at sampled point z:
(∇φ log qφ(z)) · fφ(z) + ∇φ fφ(z), as in the SVI-III notebook. -/
def scoreEstimator (q f : ℝ → ℝ → ℝ) (φ z : ℝ) : ℝ :=
  deriv (fun t => Real.log (q t z)) φ * f φ z + deriv (fun t => f t z) φ

/-- Monte Carlo average of an estimator over a list of independent draws. -/
def mcAverage (est : ℝ → ℝ) (draws : List ℝ) : ℝ :=
  (draws.map est).sum / draws.length

/-- Bernoulli density with success probability `p`, written so that it agrees
with p^z (1-p)^(1-z) on the support {0, 1}. -/
def bern (p z : ℝ) : ℝ :=
  z * p + (1 - z) * (1 - p)

/-- Distribution of the single-draw pathwise estimator induced by the base
noise distribution. -/
def pathwiseDist (f g : ℝ → ℝ → ℝ) (φ : ℝ) (base : List (ℝ × ℝ)) : List (ℝ × ℝ) :=
  base.map (fun p => (p.1, pathwiseEstimator f g φ p.2))

/-- Distribution of the single-draw score-function estimator induced by the
sampling distribution over the support `zs`. -/
def scoreDist (q f : ℝ → ℝ → ℝ) (φ : ℝ) (zs : List ℝ) : List (ℝ × ℝ) :=
  zs.map (fun z => (q φ z, scoreEstimator q f φ z))

/-- Variance of a weighted distribution. -/
def varOf (d : List (ℝ × ℝ)) : ℝ :=
  expect d (fun x => x ^ 2) - (expect d (fun x => x)) ^ 2

/-- Convolution (distribution of the sum of two independent draws). -/
def conv : List (ℝ × ℝ) → List (ℝ × ℝ) → List (ℝ × ℝ)
  | [], _ => []
  | a :: p, q => q.map (fun b => (a.1 * b.1, a.2 + b.2)) ++ conv p q

/-- Distribution of the sum of n independent draws from `p`. -/
def iidSumDist : ℕ → List (ℝ × ℝ) → List (ℝ × ℝ)
  | 0, _ => [(1, 0)]
  | n + 1, p => conv p (iidSumDist n p)

/-- Distribution of the Monte Carlo average of n independent draws from `p`. -/
def mcAvgDist (n : ℕ) (p : List (ℝ × ℝ)) : List (ℝ × ℝ) :=
  (iidSumDist n p).map (fun a => (a.1, a.2 / n))

/- Structural lemmas on expectations and masses. -/

theorem expect_nil (h : ℝ → ℝ) : expect [] h = 0 := rfl

theorem expect_cons (a : ℝ × ℝ) (d : List (ℝ × ℝ)) (h : ℝ → ℝ) :
    expect (a :: d) h = a.1 * h a.2 + expect d h := by
  simp [expect]

theorem mass_nil : mass [] = 0 := rfl

theorem mass_cons (a : ℝ × ℝ) (d : List (ℝ × ℝ)) :
    mass (a :: d) = a.1 + mass d := by
  simp [mass]

theorem expect_append (l1 l2 : List (ℝ × ℝ)) (h : ℝ → ℝ) :
    expect (l1 ++ l2) h = expect l1 h + expect l2 h := by
  simp [expect]

theorem mass_append (l1 l2 : List (ℝ × ℝ)) :
    mass (l1 ++ l2) = mass l1 + mass l2 := by
  simp [mass]

theorem sum_map_congr {α : Type} (l : List α) (f g : α → ℝ)
    (h : ∀ a ∈ l, f a = g a) : (l.map f).sum = (l.map g).sum := by
  induction l with
  | nil => rfl
  | cons a l ih =>
      simp only [List.map_cons, List.sum_cons]
      rw [h a (List.mem_cons_self a l), ih fun b hb => h b (List.mem_cons_of_mem a hb)]

theorem dexpect_eq (zs : List ℝ) (q : ℝ → ℝ → ℝ) (φ : ℝ) (h : ℝ → ℝ) :
    dexpect zs q φ h = (zs.map (fun z => q φ z * h z)).sum := by
  simp only [dexpect, expect, densityDist, List.map_map]
  rfl

/-- Derivative of a finite sum of parameterized terms. -/
theorem hasDerivAt_sum_map {α : Type} (l : List α) (F : α → ℝ → ℝ) (D : α → ℝ) (φ : ℝ)
    (h : ∀ a ∈ l, HasDerivAt (fun t => F a t) (D a) φ) :
    HasDerivAt (fun t => (l.map (fun a => F a t)).sum) ((l.map D).sum) φ := by
  induction l with
  | nil => simpa using hasDerivAt_const φ (0 : ℝ)
  | cons a l ih =>
      simp only [List.map_cons, List.sum_cons]
      exact (h a (List.mem_cons_self a l)).add
        (ih fun b hb => h b (List.mem_cons_of_mem a hb))

/-- The expectation of the pathwise estimator over the base noise distribution
is the derivative of the expectation of the pushed-forward cost. -/
theorem expect_hasDerivAt_pathwise (base : List (ℝ × ℝ)) (f g : ℝ → ℝ → ℝ)
    (d : ℝ → ℝ) (φ : ℝ)
    (hd : ∀ p ∈ base, HasDerivAt (fun t => f t (g t p.2)) (d p.2) φ) :
    HasDerivAt (fun t => expect base (fun ε => f t (g t ε)))
      (expect base (fun ε => pathwiseEstimator f g φ ε)) φ := by
  have hval : expect base (fun ε => pathwiseEstimator f g φ ε)
      = (base.map (fun p => p.1 * d p.2)).sum := by
    apply sum_map_congr
    intro p hp
    have h2 : pathwiseEstimator f g φ p.2 = d p.2 := (hd p hp).deriv
    show p.1 * pathwiseEstimator f g φ p.2 = p.1 * d p.2
    rw [h2]
  rw [hval]
  exact hasDerivAt_sum_map base (fun p t => p.1 * f t (g t p.2))
    (fun p => p.1 * d p.2) φ (fun p hp => (hd p hp).const_mul p.1)

/-- The expectation of the score-function estimator under the sampling
distribution is the derivative of the parameterized expectation. -/
theorem dexpect_hasDerivAt_score (zs : List ℝ) (q f : ℝ → ℝ → ℝ)
    (dq df : ℝ → ℝ) (φ : ℝ)
    (hq : ∀ z ∈ zs, HasDerivAt (fun t => q t z) (dq z) φ)
    (hf : ∀ z ∈ zs, HasDerivAt (fun t => f t z) (df z) φ)
    (hpos : ∀ z ∈ zs, 0 < q φ z) :
    HasDerivAt (fun t => dexpect zs q t (f t))
      (dexpect zs q φ (fun z => scoreEstimator q f φ z)) φ := by
  have hobj : (fun t => dexpect zs q t (f t))
      = fun t => (zs.map (fun z => q t z * f t z)).sum :=
    funext fun t => dexpect_eq zs q t (f t)
  have hval : dexpect zs q φ (fun z => scoreEstimator q f φ z)
      = (zs.map (fun z => dq z * f φ z + q φ z * df z)).sum := by
    rw [dexpect_eq]
    apply sum_map_congr
    intro z hz
    have hlog : deriv (fun t => Real.log (q t z)) φ = dq z / q φ z :=
      ((hq z hz).log (ne_of_gt (hpos z hz))).deriv
    have hdf : deriv (fun t => f t z) φ = df z := (hf z hz).deriv
    rw [scoreEstimator, hlog, hdf]
    have hne : q φ z ≠ 0 := ne_of_gt (hpos z hz)
    field_simp
    ring
  rw [hobj, hval]
  exact hasDerivAt_sum_map zs (fun z t => q t z * f t z)
    (fun z => dq z * f φ z + q φ z * df z) φ
    (fun z hz => (hq z hz).mul (hf z hz))

/-- C1: for every finitely supported distribution family qφ admitting a
reparameterization (a fixed base noise distribution and a parameter-dependent
transform g with the same law), and every cost f differentiable in the
parameter along the pushforward, the pathwise estimator is unbiased: its
expectation over the base noise distribution is the derivative, in the
parameter, of the expectation of the cost under qφ. -/
theorem pathwise_estimator_unbiased
    (qphi : ℝ → List (ℝ × ℝ)) (base : List (ℝ × ℝ)) (f g : ℝ → ℝ → ℝ)
    (d : ℝ → ℝ) (φ : ℝ)
    (hlaw : ∀ (t : ℝ) (h : ℝ → ℝ), expect (qphi t) h = expect base (fun ε => h (g t ε)))
    (hd : ∀ p ∈ base, HasDerivAt (fun t => f t (g t p.2)) (d p.2) φ) :
    HasDerivAt (fun t => expect (qphi t) (f t))
      (expect base (fun ε => pathwiseEstimator f g φ ε)) φ := by
  have hobj : (fun t => expect (qphi t) (f t))
      = fun t => expect base (fun ε => f t (g t ε)) :=
    funext fun t => hlaw t (f t)
  rw [hobj]
  exact expect_hasDerivAt_pathwise base f g d φ hd

theorem pathwise_estimator_unbiased_witness :
    HasDerivAt (fun t => expect [((1 : ℝ), t + 5)] (fun z => z))
      (expect [((1 : ℝ), 5)]
        (fun ε => pathwiseEstimator (fun _ z => z) (fun t ε => t + ε) 0 ε)) 0 := by
  have h := pathwise_estimator_unbiased (fun t => [((1 : ℝ), t + 5)])
    [((1 : ℝ), 5)] (fun _ z => z) (fun t ε => t + ε) (fun _ => 1) 0
    (by intro t h; simp [expect])
    (by
      intro p hp
      simp only [List.mem_singleton] at hp
      subst hp
      exact (hasDerivAt_id 0).add_const 5)
  exact h

/-- Auxiliary: the log-density of `bern` at z = 1 is log p. -/
theorem bern_log_one : (fun t : ℝ => Real.log (bern t 1)) = Real.log := by
  funext t
  simp [bern]

/-- Auxiliary: value of the score-function estimator on the Bernoulli family at
the sampled point 1, for a cost that does not depend on the parameter. -/
theorem bern_score_one (p : ℝ) (c : ℝ → ℝ) :
    scoreEstimator bern (fun _ z => c z) p 1 = p⁻¹ * c 1 := by
  rw [scoreEstimator, bern_log_one]
  rw [Real.deriv_log, deriv_const]
  ring

/-- Auxiliary: value of the score-function estimator on the Bernoulli family at
the sampled point 0, for a cost that does not depend on the parameter. -/
theorem bern_score_zero (p : ℝ) (c : ℝ → ℝ) (h1 : p < 1) :
    scoreEstimator bern (fun _ z => c z) p 0 = -1 / (1 - p) * c 0 := by
  have hfun : (fun t : ℝ => Real.log (bern t 0)) = fun t => Real.log (1 - t) := by
    funext t
    simp [bern]
  have hder : HasDerivAt (fun t : ℝ => Real.log (1 - t)) (-1 / (1 - p)) p := by
    have hlin : HasDerivAt (fun t : ℝ => 1 - t) (-1) p := (hasDerivAt_id p).const_sub 1
    exact hlin.log (by intro hc; nlinarith)
  rw [scoreEstimator, hfun, hder.deriv, deriv_const]
  ring

/-- C2: for every finitely supported parameterized distribution (given by a
positive differentiable density over a fixed support) and every cost
differentiable in the parameter, the score-function (REINFORCE) estimator has
expectation under the sampling distribution equal to the derivative of the
parameterized expectation; in particular, for the Bernoulli family with a cost
that does not depend on the parameter, that expectation equals the analytic
gradient c 1 - c 0 of the expectation (1-p)·c 0 + p·c 1. -/
theorem score_estimator_unbiased :
    (∀ (zs : List ℝ) (q f : ℝ → ℝ → ℝ) (dq df : ℝ → ℝ) (φ : ℝ),
        (∀ z ∈ zs, HasDerivAt (fun t => q t z) (dq z) φ) →
        (∀ z ∈ zs, HasDerivAt (fun t => f t z) (df z) φ) →
        (∀ z ∈ zs, 0 < q φ z) →
        HasDerivAt (fun t => dexpect zs q t (f t))
          (dexpect zs q φ (fun z => scoreEstimator q f φ z)) φ)
    ∧ (∀ (p : ℝ) (c : ℝ → ℝ), 0 < p → p < 1 →
        dexpect [1, 0] bern p (fun z => scoreEstimator bern (fun _ z => c z) p z)
          = c 1 - c 0) := by
  constructor
  · intro zs q f dq df φ hq hf hpos
    exact dexpect_hasDerivAt_score zs q f dq df φ hq hf hpos
  · intro p c h0 h1
    rw [dexpect_eq]
    simp only [List.map_cons, List.map_nil, List.sum_cons, List.sum_nil]
    rw [bern_score_one p c, bern_score_zero p c h1]
    have hb1 : bern p 1 = p := by simp [bern]
    have hb0 : bern p 0 = 1 - p := by simp [bern]
    rw [hb1, hb0]
    have hp0 : p ≠ 0 := ne_of_gt h0
    have hp1 : (1 : ℝ) - p ≠ 0 := by intro hc; nlinarith
    field_simp
    ring

theorem score_estimator_unbiased_witness :
    HasDerivAt (fun t => dexpect [1, 0] bern t ((fun _ z => z) t))
      (dexpect [1, 0] bern (1 / 2)
        (fun z => scoreEstimator bern (fun _ z => z) (1 / 2) z)) (1 / 2)
    ∧ dexpect [1, 0] bern (1 / 2)
        (fun z => scoreEstimator bern (fun _ z => (fun w : ℝ => w) z) (1 / 2) z)
      = (fun w : ℝ => w) 1 - (fun w : ℝ => w) 0 := by
  constructor
  · apply score_estimator_unbiased.1 [1, 0] bern (fun _ z => z)
      (fun z => z + (1 - z) * (-1)) (fun _ => 0) (1 / 2)
    · intro z hz
      have h3 : HasDerivAt (fun t : ℝ => z * t + (1 - z) * (1 - t))
          (z * 1 + (1 - z) * (-1)) (1 / 2) :=
        ((hasDerivAt_id (1 / 2)).const_mul z).add
          (((hasDerivAt_id (1 / 2)).const_sub 1).const_mul (1 - z))
      have h4 : z * 1 + (1 - z) * (-1) = z + (1 - z) * (-1) := by ring
      exact h4 ▸ h3
    · intro z hz
      exact hasDerivAt_const (1 / 2) z
    · intro z hz
      simp only [List.mem_cons, List.not_mem_nil, or_false] at hz
      rcases hz with rfl | rfl
      · norm_num [bern]
      · norm_num [bern]
  · exact score_estimator_unbiased.2 (1 / 2) (fun w => w) (by norm_num) (by norm_num)

/-- Auxiliary: the pathwise estimator for the identity cost through the
location transform g μ ε = μ + ε is identically 1. -/
theorem pathwise_location_identity (μ ε : ℝ) :
    pathwiseEstimator (fun _ z => z) (fun t e => t + e) μ ε = 1 := by
  show deriv (fun t => t + ε) μ = 1
  exact ((hasDerivAt_id μ).add_const ε).deriv

theorem sum_map_one (l : List ℝ) : (l.map (fun _ => (1 : ℝ))).sum = l.length := by
  induction l with
  | nil => simp
  | cons a l ih =>
      simp only [List.map_cons, List.sum_cons, List.length_cons, ih]
      push_cast
      ring

/-- C3: in the concrete scenario cost(z) = z, distribution Normal(μ, 1),
reparameterization z = μ + ε: the derivative of the cost in μ is 1 at every
draw, so for every nonempty list of draws the Monte Carlo average of the
pathwise estimator is exactly 1, which lies within 1/100 of 1, the true
gradient of the expectation in μ. -/
theorem concrete_normal_identity_cost (μ : ℝ) (draws : List ℝ)
    (hn : 1 ≤ draws.length) :
    mcAverage (fun ε => pathwiseEstimator (fun _ z => z) (fun t e => t + e) μ ε) draws = 1
    ∧ |mcAverage (fun ε => pathwiseEstimator (fun _ z => z) (fun t e => t + e) μ ε) draws
        - 1| ≤ 1 / 100 := by
  have hlen : (draws.length : ℝ) ≠ 0 := by
    have : 0 < draws.length := lt_of_lt_of_le Nat.zero_lt_one hn
    exact_mod_cast Nat.pos_iff_ne_zero.mp this
  have havg :
      mcAverage (fun ε => pathwiseEstimator (fun _ z => z) (fun t e => t + e) μ ε) draws
        = 1 := by
    rw [mcAverage]
    have hmap : (draws.map
        (fun ε => pathwiseEstimator (fun _ z => z) (fun t e => t + e) μ ε)).sum
        = (draws.map (fun _ => (1 : ℝ))).sum :=
      sum_map_congr draws _ _ (fun ε _ => pathwise_location_identity μ ε)
    rw [hmap, sum_map_one]
    exact div_self hlen
  refine ⟨havg, ?_⟩
  rw [havg]
  norm_num

theorem concrete_normal_identity_cost_witness :
    mcAverage (fun ε => pathwiseEstimator (fun _ z => z) (fun t e => t + e) 0 ε)
      (List.replicate 100000 (0 : ℝ)) = 1
    ∧ |mcAverage (fun ε => pathwiseEstimator (fun _ z => z) (fun t e => t + e) 0 ε)
        (List.replicate 100000 (0 : ℝ)) - 1| ≤ 1 / 100 :=
  concrete_normal_identity_cost 0 (List.replicate 100000 (0 : ℝ))
    (by rw [List.length_replicate]; norm_num)

/-- C4: when a family given by a positive differentiable density over a fixed
support also admits a differentiable reparameterization (same law through a
fixed base noise distribution), the pathwise and score-function estimators
estimate the same quantity: the expectation of the pathwise estimator over the
base noise equals the expectation of the score-function estimator under the
sampling distribution, and both equal the derivative of the parameterized
expectation of the cost. -/
theorem pathwise_score_same_target
    (zs : List ℝ) (q f g : ℝ → ℝ → ℝ) (base : List (ℝ × ℝ))
    (dq df d : ℝ → ℝ) (φ : ℝ)
    (hlaw : ∀ (t : ℝ) (h : ℝ → ℝ), dexpect zs q t h = expect base (fun ε => h (g t ε)))
    (hd : ∀ p ∈ base, HasDerivAt (fun t => f t (g t p.2)) (d p.2) φ)
    (hq : ∀ z ∈ zs, HasDerivAt (fun t => q t z) (dq z) φ)
    (hf : ∀ z ∈ zs, HasDerivAt (fun t => f t z) (df z) φ)
    (hpos : ∀ z ∈ zs, 0 < q φ z) :
    expect base (fun ε => pathwiseEstimator f g φ ε)
      = dexpect zs q φ (fun z => scoreEstimator q f φ z)
    ∧ HasDerivAt (fun t => dexpect zs q t (f t))
        (expect base (fun ε => pathwiseEstimator f g φ ε)) φ := by
  have hP := expect_hasDerivAt_pathwise base f g d φ hd
  have hS := dexpect_hasDerivAt_score zs q f dq df φ hq hf hpos
  have hobj : (fun t => dexpect zs q t (f t))
      = fun t => expect base (fun ε => f t (g t ε)) :=
    funext fun t => hlaw t (f t)
  have hS2 : HasDerivAt (fun t => expect base (fun ε => f t (g t ε)))
      (dexpect zs q φ (fun z => scoreEstimator q f φ z)) φ := hobj ▸ hS
  have heq : expect base (fun ε => pathwiseEstimator f g φ ε)
      = dexpect zs q φ (fun z => scoreEstimator q f φ z) := hP.unique hS2
  refine ⟨heq, ?_⟩
  rw [hobj, heq]
  exact hS2

theorem pathwise_score_same_target_witness :
    expect [((1 : ℝ) / 2, 0), ((1 : ℝ) / 2, 1)]
        (fun ε => pathwiseEstimator (fun t z => t * z) (fun _ e => e) 0 ε)
      = dexpect [0, 1] (fun _ _ => (1 : ℝ) / 2) 0
          (fun z => scoreEstimator (fun _ _ => (1 : ℝ) / 2) (fun t z => t * z) 0 z)
    ∧ HasDerivAt (fun t => dexpect [0, 1] (fun _ _ => (1 : ℝ) / 2) t ((fun t z => t * z) t))
        (expect [((1 : ℝ) / 2, 0), ((1 : ℝ) / 2, 1)]
          (fun ε => pathwiseEstimator (fun t z => t * z) (fun _ e => e) 0 ε)) 0 := by
  apply pathwise_score_same_target [0, 1] (fun _ _ => (1 : ℝ) / 2) (fun t z => t * z)
    (fun _ e => e) [((1 : ℝ) / 2, 0), ((1 : ℝ) / 2, 1)]
    (fun _ => 0) (fun z => z) (fun e => e) 0
  · intro t h
    simp [dexpect_eq, expect]
  · intro p hp
    have h1 : HasDerivAt (fun t : ℝ => t * p.2) p.2 0 := by
      simpa using (hasDerivAt_id 0).mul_const p.2
    exact h1
  · intro z hz
    exact hasDerivAt_const 0 (1 / 2)
  · intro z hz
    have h1 : HasDerivAt (fun t : ℝ => t * z) z 0 := by
      simpa using (hasDerivAt_id 0).mul_const z
    exact h1
  · intro z hz
    norm_num

/-- C5 counterexample: an admissible instance on which the single-draw variance
of the pathwise estimator is NOT strictly lower than that of the score-function
estimator. The family is the parameter-independent uniform density 1/2 on
support {0, 1}; it admits the differentiable reparameterization g t ε = ε from
the base distribution {(1/2, 0), (1/2, 1)} with exactly the same law (for every
test function), the density is positive and differentiable in the parameter,
and the cost fφ(z) = 0 is differentiable in the parameter; yet both single-draw
estimator distributions are identically 0, so both variances are 0 and the
strict inequality fails. -/
theorem pathwise_variance_not_strictly_lower :
    (∀ (t : ℝ) (h : ℝ → ℝ), dexpect [0, 1] (fun _ _ => (1 : ℝ) / 2) t h
        = expect [((1 : ℝ) / 2, 0), ((1 : ℝ) / 2, 1)] (fun ε => h ε))
    ∧ varOf (pathwiseDist (fun _ _ => 0) (fun _ e => e) 0
        [((1 : ℝ) / 2, 0), ((1 : ℝ) / 2, 1)]) = 0
    ∧ varOf (scoreDist (fun _ _ => (1 : ℝ) / 2) (fun _ _ => 0) 0 [0, 1]) = 0
    ∧ ¬ (varOf (pathwiseDist (fun _ _ => 0) (fun _ e => e) 0
          [((1 : ℝ) / 2, 0), ((1 : ℝ) / 2, 1)])
        < varOf (scoreDist (fun _ _ => (1 : ℝ) / 2) (fun _ _ => 0) 0 [0, 1])) := by
  have hpe : ∀ ε : ℝ, pathwiseEstimator (fun _ _ => (0 : ℝ)) (fun _ e => e) 0 ε = 0 := by
    intro ε
    show deriv (fun _ => (0 : ℝ)) 0 = 0
    exact deriv_const 0 0
  have hse : ∀ z : ℝ, scoreEstimator (fun _ _ => (1 : ℝ) / 2) (fun _ _ => 0) 0 z = 0 := by
    intro z
    rw [scoreEstimator]
    rw [deriv_const, deriv_const]
    ring
  have hvp : varOf (pathwiseDist (fun _ _ => 0) (fun _ e => e) 0
      [((1 : ℝ) / 2, 0), ((1 : ℝ) / 2, 1)]) = 0 := by
    rw [varOf, pathwiseDist]
    simp only [List.map_cons, List.map_nil]
    rw [hpe, hpe]
    rw [expect_cons, expect_cons, expect_nil, expect_cons, expect_cons, expect_nil]
    norm_num
  have hvs : varOf (scoreDist (fun _ _ => (1 : ℝ) / 2) (fun _ _ => 0) 0 [0, 1]) = 0 := by
    rw [varOf, scoreDist]
    simp only [List.map_cons, List.map_nil]
    rw [hse, hse]
    rw [expect_cons, expect_cons, expect_nil, expect_cons, expect_cons, expect_nil]
    norm_num
  refine ⟨?_, hvp, hvs, ?_⟩
  · intro t h
    rw [dexpect_eq]
    rw [expect_cons, expect_cons, expect_nil]
    simp only [List.map_cons, List.map_nil, List.sum_cons, List.sum_nil]
  · rw [hvp, hvs]
    exact lt_irrefl 0

/-- Auxiliary: a finite sum of nonnegative reals is zero only if every term is
zero. -/
theorem sum_map_eq_zero_of_nonneg {α : Type} (l : List α) (f : α → ℝ)
    (hn : ∀ a ∈ l, 0 ≤ f a) (hs : (l.map f).sum = 0) : ∀ a ∈ l, f a = 0 := by
  induction l with
  | nil => intro a ha; exact absurd ha (List.not_mem_nil a)
  | cons b l ih =>
      rw [List.map_cons, List.sum_cons] at hs
      have hb : 0 ≤ f b := hn b (List.mem_cons_self b l)
      have hrest : 0 ≤ (l.map f).sum := by
        apply List.sum_nonneg
        intro x hx
        rcases List.mem_map.mp hx with ⟨a, ha, rfl⟩
        exact hn a (List.mem_cons_of_mem b ha)
      have hb0 : f b = 0 := by linarith
      have hs0 : (l.map f).sum = 0 := by linarith
      intro a ha
      rcases List.mem_cons.mp ha with rfl | ha2
      · exact hb0
      · exact ih (fun x hx => hn x (List.mem_cons_of_mem b hx)) hs0 a ha2

/-- Polynomial that vanishes exactly on the support: the product of (x - z)^2
over the support points. -/
def vanish (zs : List ℝ) (x : ℝ) : ℝ :=
  (zs.map (fun z => (x - z) ^ 2)).prod

theorem vanish_nonneg (zs : List ℝ) (x : ℝ) : 0 ≤ vanish zs x := by
  rw [vanish]
  induction zs with
  | nil => norm_num
  | cons z zs ih =>
      rw [List.map_cons, List.prod_cons]
      exact mul_nonneg (sq_nonneg _) ih

theorem vanish_eq_zero_of_mem (zs : List ℝ) (z : ℝ) (h : z ∈ zs) :
    vanish zs z = 0 := by
  rw [vanish]
  exact List.prod_eq_zero (List.mem_map.mpr ⟨z, h, by simp⟩)

theorem mem_of_vanish_eq_zero (zs : List ℝ) (x : ℝ) (h : vanish zs x = 0) :
    x ∈ zs := by
  rw [vanish] at h
  rcases List.mem_map.mp (List.prod_eq_zero_iff.mp h) with ⟨z, hz, hzero⟩
  have hx : x = z := by
    have h3 : x - z = 0 := (pow_eq_zero_iff (two_ne_zero)).mp hzero
    linarith
  exact hx ▸ hz

/-- Under full law matching with nonnegative base weights, the transform maps
every noise atom of nonzero weight into the support, at every parameter. -/
theorem reparam_mem_support (zs : List ℝ) (q g : ℝ → ℝ → ℝ)
    (base : List (ℝ × ℝ))
    (hw : ∀ p ∈ base, 0 ≤ p.1)
    (hlaw : ∀ (t : ℝ) (h : ℝ → ℝ), dexpect zs q t h = expect base (fun ε => h (g t ε)))
    (t : ℝ) : ∀ p ∈ base, p.1 ≠ 0 → g t p.2 ∈ zs := by
  have hzero : dexpect zs q t (fun x => vanish zs x) = 0 := by
    rw [dexpect_eq]
    have hcongr : (zs.map (fun z => q t z * vanish zs z)).sum
        = (zs.map (fun _ => (0 : ℝ))).sum := by
      apply sum_map_congr
      intro z hz
      rw [vanish_eq_zero_of_mem zs z hz, mul_zero]
    rw [hcongr]
    simp
  have hbase : expect base (fun ε => vanish zs (g t ε)) = 0 := by
    rw [← hlaw t (fun x => vanish zs x)]
    exact hzero
  have hbase2 : (base.map (fun p => p.1 * vanish zs (g t p.2))).sum = 0 := hbase
  have hall := sum_map_eq_zero_of_nonneg base
    (fun p => p.1 * vanish zs (g t p.2))
    (fun p hp => mul_nonneg (hw p hp) (vanish_nonneg zs _)) hbase2
  intro p hp hne
  rcases mul_eq_zero.mp (hall p hp) with h1 | h2
  · exact absurd h1 hne
  · exact mem_of_vanish_eq_zero zs _ h2

/-- A continuous real function with finite range is constant. -/
theorem continuous_finite_range_constant (G : ℝ → ℝ) (hc : Continuous G)
    (hfin : (Set.range G).Finite) (t s : ℝ) : G t = G s := by
  by_contra hne
  have hoc : (Set.range G).OrdConnected := (isPreconnected_range hc).ordConnected
  rcases lt_or_gt_of_ne hne with hlt | hlt
  · have hsub : Set.Icc (G t) (G s) ⊆ Set.range G :=
      hoc.out (Set.mem_range_self t) (Set.mem_range_self s)
    exact hfin.not_infinite ((Set.Icc_infinite hlt).mono hsub)
  · have hsub : Set.Icc (G s) (G t) ⊆ Set.range G :=
      hoc.out (Set.mem_range_self s) (Set.mem_range_self t)
    exact hfin.not_infinite ((Set.Icc_infinite hlt).mono hsub)

/-- A differentiable (here: continuous) reparameterization of a finitely
supported family is constant in the parameter on every noise atom of nonzero
weight: its value is pinned to the finite support at every parameter. -/
theorem reparam_constant (zs : List ℝ) (q g : ℝ → ℝ → ℝ) (base : List (ℝ × ℝ))
    (hw : ∀ p ∈ base, 0 ≤ p.1)
    (hlaw : ∀ (t : ℝ) (h : ℝ → ℝ), dexpect zs q t h = expect base (fun ε => h (g t ε)))
    (hgc : ∀ p ∈ base, Continuous (fun t => g t p.2)) :
    ∀ p ∈ base, p.1 ≠ 0 → ∀ t s : ℝ, g t p.2 = g s p.2 := by
  intro p hp hne t s
  apply continuous_finite_range_constant _ (hgc p hp)
  apply Set.Finite.subset (List.finite_toSet zs)
  rintro x ⟨u, rfl⟩
  exact reparam_mem_support zs q g base hw hlaw u p hp hne

/-- Lagrange selector polynomial for a support point: equals 1 at z0 and 0 at
every other point of the support. -/
def lagrangeSel (zs : List ℝ) (z0 x : ℝ) : ℝ :=
  ((zs.filter (fun z => decide (z ≠ z0))).map (fun z => (x - z) / (z0 - z))).prod

theorem lagrangeSel_self (zs : List ℝ) (z0 : ℝ) : lagrangeSel zs z0 z0 = 1 := by
  rw [lagrangeSel]
  apply List.prod_eq_one
  intro x hx
  rcases List.mem_map.mp hx with ⟨z, hz, rfl⟩
  have hzne : z ≠ z0 := of_decide_eq_true (List.mem_filter.mp hz).2
  exact div_self (sub_ne_zero.mpr (Ne.symm hzne))

theorem lagrangeSel_other (zs : List ℝ) (z0 z1 : ℝ) (h1 : z1 ∈ zs)
    (hne : z1 ≠ z0) : lagrangeSel zs z0 z1 = 0 := by
  rw [lagrangeSel]
  apply List.prod_eq_zero
  apply List.mem_map.mpr
  refine ⟨z1, List.mem_filter.mpr ⟨h1, decide_eq_true hne⟩, ?_⟩
  rw [sub_self, zero_div]

/-- Auxiliary: a sum over a duplicate-free list with a single potentially
nonzero term. -/
theorem sum_map_single (l : List ℝ) (hnd : l.Nodup) (a : ℝ) (ha : a ∈ l)
    (F : ℝ → ℝ) (h0 : ∀ x ∈ l, x ≠ a → F x = 0) :
    (l.map F).sum = F a := by
  induction l with
  | nil => exact absurd ha (List.not_mem_nil a)
  | cons b l ih =>
      rw [List.map_cons, List.sum_cons]
      rcases List.nodup_cons.mp hnd with ⟨hbn, hndl⟩
      rcases List.mem_cons.mp ha with rfl | hal
      · have hrest : (l.map F).sum = (l.map (fun _ => (0 : ℝ))).sum := by
          apply sum_map_congr
          intro x hx
          exact h0 x (List.mem_cons_of_mem a hx) (fun hxa => hbn (hxa ▸ hx))
        rw [hrest]
        simp
      · have hb0 : F b = 0 :=
          h0 b (List.mem_cons_self b l) (fun hba => hbn (hba ▸ hal))
        rw [hb0, ih hndl hal
          (fun x hx hxa => h0 x (List.mem_cons_of_mem b hx) hxa)]
        ring

/-- The density of a fully reparameterizable finitely supported family is
constant in the parameter at every support point: the Lagrange selector reads
it off the law, and the law is pinned by the parameter-constant transform. -/
theorem density_constant (zs : List ℝ) (q g : ℝ → ℝ → ℝ) (base : List (ℝ × ℝ))
    (hnd : zs.Nodup)
    (hw : ∀ p ∈ base, 0 ≤ p.1)
    (hlaw : ∀ (t : ℝ) (h : ℝ → ℝ), dexpect zs q t h = expect base (fun ε => h (g t ε)))
    (hgc : ∀ p ∈ base, Continuous (fun t => g t p.2)) :
    ∀ z0 ∈ zs, ∀ t s : ℝ, q t z0 = q s z0 := by
  intro z0 hz0 t s
  have hval : ∀ u : ℝ, dexpect zs q u (fun x => lagrangeSel zs z0 x) = q u z0 := by
    intro u
    rw [dexpect_eq]
    have h1 := sum_map_single zs hnd z0 hz0
      (fun z => q u z * lagrangeSel zs z0 z)
      (fun x hx hxne => by
        show q u x * lagrangeSel zs z0 x = 0
        rw [lagrangeSel_other zs z0 x hx hxne, mul_zero])
    rw [h1]
    show q u z0 * lagrangeSel zs z0 z0 = q u z0
    rw [lagrangeSel_self, mul_one]
  have he1 : q t z0 = expect base (fun ε => lagrangeSel zs z0 (g t ε)) := by
    rw [← hval t, hlaw t]
  have he2 : q s z0 = expect base (fun ε => lagrangeSel zs z0 (g s ε)) := by
    rw [← hval s, hlaw s]
  rw [he1, he2]
  have h3 : (base.map (fun p => p.1 * lagrangeSel zs z0 (g t p.2))).sum
      = (base.map (fun p => p.1 * lagrangeSel zs z0 (g s p.2))).sum := by
    apply sum_map_congr
    intro p hp
    by_cases hne : p.1 = 0
    · rw [hne, zero_mul, zero_mul]
    · rw [reparam_constant zs q g base hw hlaw hgc p hp hne t s]
  exact h3

theorem expect_map_value (l : List (ℝ × ℝ)) (v : ℝ → ℝ) (h : ℝ → ℝ) :
    expect (l.map (fun a => (a.1, v a.2))) h
      = (l.map (fun a => a.1 * h (v a.2))).sum := by
  simp only [expect, List.map_map]
  rfl

theorem expect_over_support (zs : List ℝ) (w v : ℝ → ℝ) (h : ℝ → ℝ) :
    expect (zs.map (fun z => (w z, v z))) h
      = (zs.map (fun z => w z * h (v z))).sum := by
  simp only [expect, List.map_map]
  rfl

/-- C5 amended: for every finitely supported distribution family (duplicate-free
support, nonnegative base weights) admitting a differentiable (hence
continuous-in-the-parameter) reparameterization with the same law, and every
cost differentiable in the parameter, the single-draw variance of the pathwise
estimator is lower than OR EQUAL TO the single-draw variance of the
score-function estimator on the same family, cost and parameter. Full law
matching pins the transform to the finite support, so it is constant in the
parameter, the density is constant in the parameter, and the two single-draw
estimator distributions have identical first and second moments. -/
theorem pathwise_variance_le_score_variance
    (zs : List ℝ) (q f g : ℝ → ℝ → ℝ) (base : List (ℝ × ℝ)) (df : ℝ → ℝ) (φ : ℝ)
    (hnd : zs.Nodup)
    (hw : ∀ p ∈ base, 0 ≤ p.1)
    (hlaw : ∀ (t : ℝ) (h : ℝ → ℝ), dexpect zs q t h = expect base (fun ε => h (g t ε)))
    (hgc : ∀ p ∈ base, Continuous (fun t => g t p.2))
    (hf : ∀ z ∈ zs, HasDerivAt (fun t => f t z) (df z) φ) :
    varOf (pathwiseDist f g φ base) ≤ varOf (scoreDist q f φ zs) := by
  have hscore : ∀ z ∈ zs, scoreEstimator q f φ z = df z := by
    intro z hz
    have hconst : (fun t => Real.log (q t z)) = fun _ => Real.log (q φ z) :=
      funext fun t => by
        rw [density_constant zs q g base hnd hw hlaw hgc z hz t φ]
    rw [scoreEstimator, hconst, deriv_const, (hf z hz).deriv]
    ring
  have hpath : ∀ p ∈ base, p.1 ≠ 0 →
      pathwiseEstimator f g φ p.2 = df (g φ p.2) := by
    intro p hp hne
    have hconst : (fun t => f t (g t p.2)) = fun t => f t (g φ p.2) :=
      funext fun t => by
        rw [reparam_constant zs q g base hw hlaw hgc p hp hne t φ]
    have hmem : g φ p.2 ∈ zs := reparam_mem_support zs q g base hw hlaw φ p hp hne
    rw [pathwiseEstimator, hconst, (hf (g φ p.2) hmem).deriv]
  have hmom : ∀ h : ℝ → ℝ,
      expect (pathwiseDist f g φ base) h = expect (scoreDist q f φ zs) h := by
    intro h
    have hP : expect (pathwiseDist f g φ base) h
        = (base.map (fun p => p.1 * h (df (g φ p.2)))).sum := by
      rw [pathwiseDist, expect_map_value]
      apply sum_map_congr
      intro p hp
      by_cases hne : p.1 = 0
      · rw [hne, zero_mul, zero_mul]
      · rw [hpath p hp hne]
    have hS : expect (scoreDist q f φ zs) h
        = (zs.map (fun z => q φ z * h (df z))).sum := by
      rw [scoreDist, expect_over_support]
      apply sum_map_congr
      intro z hz
      rw [hscore z hz]
    have hT : (base.map (fun p => p.1 * h (df (g φ p.2)))).sum
        = (zs.map (fun z => q φ z * h (df z))).sum := by
      have hlawφ := hlaw φ (fun x => h (df x))
      rw [dexpect_eq] at hlawφ
      have hE : (base.map (fun p => p.1 * h (df (g φ p.2)))).sum
          = expect base (fun ε => h (df (g φ ε))) := rfl
      rw [hE]
      exact hlawφ.symm
    rw [hP, hS, hT]
  rw [varOf, varOf, hmom (fun x => x ^ 2), hmom (fun x => x)]

theorem pathwise_variance_le_score_variance_witness :
    varOf (pathwiseDist (fun t z => t * z) (fun _ e => e) 0
        [((1 : ℝ) / 2, 0), ((1 : ℝ) / 2, 1)])
      ≤ varOf (scoreDist (fun _ _ => (1 : ℝ) / 2) (fun t z => t * z) 0 [0, 1]) := by
  apply pathwise_variance_le_score_variance [0, 1] (fun _ _ => (1 : ℝ) / 2)
    (fun t z => t * z) (fun _ e => e) [((1 : ℝ) / 2, 0), ((1 : ℝ) / 2, 1)]
    (fun z => z) 0
  · norm_num [List.nodup_cons]
  · intro p hp
    simp only [List.mem_cons, List.not_mem_nil, or_false] at hp
    rcases hp with rfl | rfl
    · norm_num
    · norm_num
  · intro t h
    rw [dexpect_eq]
    rw [expect_cons, expect_cons, expect_nil]
    simp only [List.map_cons, List.map_nil, List.sum_cons, List.sum_nil]
  · intro p hp
    exact continuous_const
  · intro z hz
    have h1 : HasDerivAt (fun t : ℝ => t * z) z 0 := by
      simpa using (hasDerivAt_id 0).mul_const z
    exact h1

/- Algebra of convolutions, for the law-of-large-numbers check. -/

theorem mass_row (qd : List (ℝ × ℝ)) (w x : ℝ) :
    mass (qd.map (fun b => (w * b.1, x + b.2))) = w * mass qd := by
  induction qd with
  | nil => simp [mass_nil]
  | cons b qd ih =>
      rw [List.map_cons, mass_cons, mass_cons, ih]
      ring

theorem expect_row_id (qd : List (ℝ × ℝ)) (w x : ℝ) :
    expect (qd.map (fun b => (w * b.1, x + b.2))) (fun y => y)
      = w * (x * mass qd + expect qd (fun y => y)) := by
  induction qd with
  | nil => simp [expect_nil, mass_nil]
  | cons b qd ih =>
      rw [List.map_cons, expect_cons, expect_cons, mass_cons, ih]
      ring

theorem expect_row_sq (qd : List (ℝ × ℝ)) (w x : ℝ) :
    expect (qd.map (fun b => (w * b.1, x + b.2))) (fun y => y ^ 2)
      = w * (x ^ 2 * mass qd + 2 * x * expect qd (fun y => y)
          + expect qd (fun y => y ^ 2)) := by
  induction qd with
  | nil => simp [expect_nil, mass_nil]
  | cons b qd ih =>
      rw [List.map_cons, expect_cons, expect_cons, expect_cons, mass_cons, ih]
      ring

theorem mass_conv (p q : List (ℝ × ℝ)) :
    mass (conv p q) = mass p * mass q := by
  induction p with
  | nil => simp [conv, mass_nil]
  | cons a p ih =>
      rw [conv, mass_append, mass_row, ih, mass_cons]
      ring

theorem expect_conv_id (p q : List (ℝ × ℝ)) :
    expect (conv p q) (fun x => x)
      = expect p (fun x => x) * mass q + mass p * expect q (fun x => x) := by
  induction p with
  | nil => simp [conv, expect_nil, mass_nil]
  | cons a p ih =>
      rw [conv, expect_append, expect_row_id, ih, expect_cons, mass_cons]
      ring

theorem expect_conv_sq (p q : List (ℝ × ℝ)) :
    expect (conv p q) (fun x => x ^ 2)
      = expect p (fun x => x ^ 2) * mass q
        + 2 * expect p (fun x => x) * expect q (fun x => x)
        + mass p * expect q (fun x => x ^ 2) := by
  induction p with
  | nil => simp [conv, expect_nil, mass_nil]
  | cons a p ih =>
      rw [conv, expect_append, expect_row_sq, ih, expect_cons, expect_cons, mass_cons]
      ring

theorem iid_mass (p : List (ℝ × ℝ)) (n : ℕ) (hm : mass p = 1) :
    mass (iidSumDist n p) = 1 := by
  induction n with
  | zero => simp [iidSumDist, mass_cons, mass_nil]
  | succ n ih =>
      rw [iidSumDist, mass_conv, hm, ih]
      ring

theorem iid_mean (p : List (ℝ × ℝ)) (n : ℕ) (hm : mass p = 1) :
    expect (iidSumDist n p) (fun x => x) = n * expect p (fun x => x) := by
  induction n with
  | zero => simp [iidSumDist, expect_cons, expect_nil]
  | succ n ih =>
      rw [iidSumDist, expect_conv_id, iid_mass p n hm, ih, hm]
      push_cast
      ring

theorem iid_sq (p : List (ℝ × ℝ)) (n : ℕ) (hm : mass p = 1) :
    expect (iidSumDist n p) (fun x => x ^ 2)
      = n * expect p (fun x => x ^ 2)
        + (n : ℝ) * ((n : ℝ) - 1) * (expect p (fun x => x)) ^ 2 := by
  induction n with
  | zero => simp [iidSumDist, expect_cons, expect_nil]
  | succ n ih =>
      rw [iidSumDist, expect_conv_sq, iid_mass p n hm, iid_mean p n hm, ih, hm]
      push_cast
      ring

theorem mcAvg_mean_aux (l : List (ℝ × ℝ)) (n : ℝ) :
    expect (l.map (fun a => (a.1, a.2 / n))) (fun x => x)
      = expect l (fun x => x) / n := by
  induction l with
  | nil => simp [expect_nil]
  | cons a l ih =>
      rw [List.map_cons, expect_cons, expect_cons, ih]
      ring

theorem mcAvg_sq_aux (l : List (ℝ × ℝ)) (n : ℝ) :
    expect (l.map (fun a => (a.1, a.2 / n))) (fun x => x ^ 2)
      = expect l (fun x => x ^ 2) / n ^ 2 := by
  induction l with
  | nil => simp [expect_nil]
  | cons a l ih =>
      rw [List.map_cons, expect_cons, expect_cons, ih]
      ring

/-- For a unit-mass single-draw distribution, the n-sample Monte Carlo average
is unbiased and its variance is the single-draw variance divided by n. -/
theorem mcAvg_unbiased_var (p : List (ℝ × ℝ)) (n : ℕ) (hn : 1 ≤ n)
    (hm : mass p = 1) :
    expect (mcAvgDist n p) (fun x => x) = expect p (fun x => x)
    ∧ varOf (mcAvgDist n p) = varOf p / n := by
  have hn0 : (n : ℝ) ≠ 0 := by
    exact_mod_cast Nat.pos_iff_ne_zero.mp (lt_of_lt_of_le Nat.zero_lt_one hn)
  constructor
  · rw [mcAvgDist, mcAvg_mean_aux, iid_mean p n hm]
    field_simp
  · rw [varOf, varOf, mcAvgDist, mcAvg_mean_aux, mcAvg_sq_aux,
      iid_mean p n hm, iid_sq p n hm]
    field_simp
    ring

/-- C6: for each of the two estimators and every sample count n ≥ 1, the
variance of the Monte Carlo average of n independent draws equals the
single-draw variance divided by n, and the averaged estimate remains unbiased
for every n (assuming the single-draw estimator distributions carry unit
mass, i.e. the weights are a probability distribution). -/
theorem mc_average_variance
    (f g q : ℝ → ℝ → ℝ) (φ : ℝ) (base : List (ℝ × ℝ)) (zs : List ℝ) (n : ℕ)
    (hn : 1 ≤ n)
    (hmp : mass (pathwiseDist f g φ base) = 1)
    (hms : mass (scoreDist q f φ zs) = 1) :
    (expect (mcAvgDist n (pathwiseDist f g φ base)) (fun x => x)
        = expect (pathwiseDist f g φ base) (fun x => x)
      ∧ varOf (mcAvgDist n (pathwiseDist f g φ base))
        = varOf (pathwiseDist f g φ base) / n)
    ∧ (expect (mcAvgDist n (scoreDist q f φ zs)) (fun x => x)
        = expect (scoreDist q f φ zs) (fun x => x)
      ∧ varOf (mcAvgDist n (scoreDist q f φ zs))
        = varOf (scoreDist q f φ zs) / n) :=
  ⟨mcAvg_unbiased_var (pathwiseDist f g φ base) n hn hmp,
   mcAvg_unbiased_var (scoreDist q f φ zs) n hn hms⟩

theorem mc_average_variance_witness :
    (expect (mcAvgDist 2 (pathwiseDist (fun _ z => z) (fun t e => t + e) (1 / 2)
          [((1 : ℝ), 0)])) (fun x => x)
        = expect (pathwiseDist (fun _ z => z) (fun t e => t + e) (1 / 2)
          [((1 : ℝ), 0)]) (fun x => x)
      ∧ varOf (mcAvgDist 2 (pathwiseDist (fun _ z => z) (fun t e => t + e) (1 / 2)
          [((1 : ℝ), 0)]))
        = varOf (pathwiseDist (fun _ z => z) (fun t e => t + e) (1 / 2)
          [((1 : ℝ), 0)]) / 2)
    ∧ (expect (mcAvgDist 2 (scoreDist bern (fun _ z => z) (1 / 2) [1, 0]))
          (fun x => x)
        = expect (scoreDist bern (fun _ z => z) (1 / 2) [1, 0]) (fun x => x)
      ∧ varOf (mcAvgDist 2 (scoreDist bern (fun _ z => z) (1 / 2) [1, 0]))
        = varOf (scoreDist bern (fun _ z => z) (1 / 2) [1, 0]) / 2) :=
  mc_average_variance (fun _ z => z) (fun t e => t + e) bern (1 / 2)
    [((1 : ℝ), 0)] [1, 0] 2 (by norm_num)
    (by
      rw [pathwiseDist]
      simp only [List.map_cons, List.map_nil]
      rw [mass_cons, mass_nil]
      norm_num)
    (by
      rw [scoreDist]
      simp only [List.map_cons, List.map_nil]
      rw [mass_cons, mass_cons, mass_nil]
      norm_num [bern])

/-- Modelled from the spec: the notebooks contain no error-handling code; the
spec states that evaluating an estimator is deterministic given a random draw
and fails only if the distribution's density or its parameter-gradient is
undefined at the sampled point (for a Bernoulli family, the log-density
gradient z/p - (1-z)/(1-p) is undefined on the boundary p ∈ {0, 1}), which
must be guarded by the caller. This embeds that single failure mode as an
Option-valued Bernoulli score-function estimator whose error branch is taken
exactly when the gradient formula is undefined. -/
def bernScoreEstChecked (p z c dc : ℝ) : Option ℝ :=
  if p = 0 ∨ p = 1 then none
  else some ((z / p - (1 - z) / (1 - p)) * c + dc)

/-- C7: under the caller-guarded precondition 0 < p < 1 the error branch of the
embedded Bernoulli score-function estimator is unreachable: every call returns
a value, and there is no retry or other failure path. -/
theorem score_estimator_total_on_interior (p z c dc : ℝ)
    (h0 : 0 < p) (h1 : p < 1) :
    ∃ v, bernScoreEstChecked p z c dc = some v := by
  refine ⟨(z / p - (1 - z) / (1 - p)) * c + dc, ?_⟩
  rw [bernScoreEstChecked, if_neg]
  rintro (rfl | rfl)
  · exact lt_irrefl 0 h0
  · exact lt_irrefl 1 h1

theorem score_estimator_total_on_interior_witness :
    ∃ v, bernScoreEstChecked (1 / 2) 1 3 0 = some v :=
  score_estimator_total_on_interior (1 / 2) 1 3 0 (by norm_num) (by norm_num)

/-- The weather stochastic function of Tutorial 1, as a pure function of its
two random draws: the Bernoulli(0.3) draw for cloud cover and the standard
normal noise for the temperature (Normal(mean, scale).rsample() is mean +
scale * noise). Mirrors both the torch version and the pyro.sample version,
which compute the same values. -/
def weather (cloudyDraw tempNoise : ℝ) : String × ℝ :=
  let cloudy := if cloudyDraw = 1 then "cloudy" else "sunny"
  let meanTemp : ℝ := if cloudy = "cloudy" then 55 else 75
  let scaleTemp : ℝ := if cloudy = "cloudy" then 10 else 15
  (cloudy, meanTemp + scaleTemp * tempNoise)

/-- C8: the estimators and the example stochastic functions are pure and
deterministic given their random draws: for every parameter vector and every
fixed sequence of supplied sampled values, two runs return equal outputs.
(The embedding is a pure function of its draws, so there is no shared mutable
state to read or write.) -/
theorem estimators_deterministic
    (f g q : ℝ → ℝ → ℝ) (φ b1 b2 e1 e2 : ℝ) (draws1 draws2 : List ℝ)
    (hb : b1 = b2) (he : e1 = e2) (hdr : draws1 = draws2) :
    weather b1 e1 = weather b2 e2
    ∧ pathwiseEstimator f g φ e1 = pathwiseEstimator f g φ e2
    ∧ scoreEstimator q f φ b1 = scoreEstimator q f φ b2
    ∧ mcAverage (fun ε => pathwiseEstimator f g φ ε) draws1
        = mcAverage (fun ε => pathwiseEstimator f g φ ε) draws2 := by
  subst hb
  subst he
  subst hdr
  exact ⟨rfl, rfl, rfl, rfl⟩

theorem estimators_deterministic_witness :
    weather 1 0 = weather 1 0
    ∧ pathwiseEstimator (fun _ z => z) (fun t e => t + e) 0 0
        = pathwiseEstimator (fun _ z => z) (fun t e => t + e) 0 0
    ∧ scoreEstimator bern (fun _ z => z) 0 1 = scoreEstimator bern (fun _ z => z) 0 1
    ∧ mcAverage (fun ε => pathwiseEstimator (fun _ z => z) (fun t e => t + e) 0 ε) [1]
        = mcAverage (fun ε => pathwiseEstimator (fun _ z => z) (fun t e => t + e) 0 ε)
          [1] :=
  estimators_deterministic (fun _ z => z) (fun t e => t + e) bern 0 1 1 0 0 [1] [1]
    rfl rfl rfl

/-- C9: every call to weather returns a pair (c, t) with c exactly one of
"cloudy" or "sunny" — "cloudy" if and only if the Bernoulli(0.3) draw equals
1.0 — and t drawn from Normal with mean 55 and scale 10 when cloudy, and mean
75 and scale 15 when sunny. -/
theorem weather_output_shape (b ε : ℝ) :
    ((weather b ε).1 = "cloudy" ∨ (weather b ε).1 = "sunny")
    ∧ ((weather b ε).1 = "cloudy" ↔ b = 1)
    ∧ (weather b ε).2 = (if b = 1 then 55 + 10 * ε else 75 + 15 * ε) := by
  by_cases hb : b = 1
  · refine ⟨Or.inl ?_, ?_, ?_⟩ <;> simp [weather, hb]
  · refine ⟨Or.inr ?_, ?_, ?_⟩ <;> simp [weather, hb]

/-- State space [0, 1, ..., k-1] of the Markov chain example, as real values. -/
def stateSpace (k : ℕ) : List ℝ :=
  List.map Nat.cast (List.range k)

/-- One-hot sample of Multinomial(total_count = 1): 1 at the drawn category,
0 elsewhere. -/
def oneHot (k i : ℕ) : List ℝ :=
  (List.range k).map (fun j => if j = i then 1 else 0)

/-- Elementwise product followed by sum, as in (state_space * z).sum(). -/
def dotList (xs ys : List ℝ) : ℝ :=
  (List.zipWith (fun a b => a * b) xs ys).sum

/-- The transition function of the Markov chain example: the next state is the
dot product of the state space with the one-hot Multinomial sample (the drawn
category index is supplied as the draw). -/
def transition (k : ℕ) (draw : ℕ) : ℝ :=
  dotList (stateSpace k) (oneHot k draw)

/-- The Markov_chain function of Tutorial 1, as a pure function of its random
draws: the initial state is the SUM of the one-hot Multinomial(1, P_0) sample,
and each later state is appended by `transition`. `P0` is carried for
faithfulness to the source signature; it only shapes the distribution of the
supplied draw. -/
def markovChain (_P0 : List ℝ) (k : ℕ) (initDraw : ℕ) (draws : List ℕ) : List ℝ :=
  (oneHot k initDraw).sum :: draws.map (fun d => transition k d)

theorem oneHot_sum_of_le (k i : ℕ) (h : k ≤ i) : (oneHot k i).sum = 0 := by
  induction k with
  | zero => rfl
  | succ k ih =>
      rw [oneHot, List.range_succ, List.map_append, List.sum_append]
      have hki : k ≠ i := Nat.ne_of_lt (lt_of_lt_of_le (Nat.lt_succ_self k) h)
      have hrest := ih (le_of_lt (lt_of_lt_of_le (Nat.lt_succ_self k) h))
      rw [oneHot] at hrest
      rw [hrest]
      simp [hki]

theorem oneHot_sum_of_lt (k i : ℕ) (h : i < k) : (oneHot k i).sum = 1 := by
  induction k with
  | zero => exact absurd h (Nat.not_lt_zero i)
  | succ k ih =>
      rw [oneHot, List.range_succ, List.map_append, List.sum_append]
      rcases Nat.lt_succ_iff_lt_or_eq.mp h with hlt | heq
      · have hki : k ≠ i := Nat.ne_of_gt hlt
        have hrest := ih hlt
        rw [oneHot] at hrest
        rw [hrest]
        simp [hki]
      · have hrest := oneHot_sum_of_le k i (le_of_eq heq.symm)
        rw [oneHot] at hrest
        rw [hrest]
        simp [heq]

theorem stateSpace_succ (k : ℕ) :
    stateSpace (k + 1) = stateSpace k ++ [(k : ℝ)] := by
  rw [stateSpace, stateSpace, List.range_succ, List.map_append, List.map_singleton]

theorem oneHot_succ (k i : ℕ) :
    oneHot (k + 1) i = oneHot k i ++ [if k = i then 1 else 0] := by
  rw [oneHot, oneHot, List.range_succ, List.map_append, List.map_singleton]

theorem stateSpace_length (k : ℕ) : (stateSpace k).length = k := by
  rw [stateSpace, List.length_map, List.length_range]

theorem oneHot_length (k i : ℕ) : (oneHot k i).length = k := by
  rw [oneHot, List.length_map, List.length_range]

theorem dotList_append (xs1 ys1 xs2 ys2 : List ℝ) (h : xs1.length = ys1.length) :
    dotList (xs1 ++ xs2) (ys1 ++ ys2) = dotList xs1 ys1 + dotList xs2 ys2 := by
  rw [dotList, dotList, dotList, List.zipWith_append _ _ _ _ _ h, List.sum_append]

theorem transition_of_le (k d : ℕ) (h : k ≤ d) : transition k d = 0 := by
  induction k with
  | zero => rfl
  | succ k ih =>
      have hki : k ≠ d := Nat.ne_of_lt (lt_of_lt_of_le (Nat.lt_succ_self k) h)
      have hrest := ih (le_of_lt (lt_of_lt_of_le (Nat.lt_succ_self k) h))
      rw [transition] at hrest ⊢
      rw [stateSpace_succ, oneHot_succ,
        dotList_append _ _ _ _ ((stateSpace_length k).trans (oneHot_length k d).symm),
        hrest]
      simp [dotList, hki]

theorem transition_of_lt (k d : ℕ) (h : d < k) : transition k d = d := by
  induction k with
  | zero => exact absurd h (Nat.not_lt_zero d)
  | succ k ih =>
      rcases Nat.lt_succ_iff_lt_or_eq.mp h with hlt | heq
      · have hki : k ≠ d := Nat.ne_of_gt hlt
        have hrest := ih hlt
        rw [transition] at hrest ⊢
        rw [stateSpace_succ, oneHot_succ,
          dotList_append _ _ _ _ ((stateSpace_length k).trans (oneHot_length k d).symm),
          hrest]
        simp [dotList, hki]
      · have hrest := transition_of_le k d (le_of_eq heq.symm)
        rw [transition] at hrest ⊢
        rw [stateSpace_succ, oneHot_succ,
          dotList_append _ _ _ _ ((stateSpace_length k).trans (oneHot_length k d).symm),
          hrest]
        simp [dotList, heq]

/-- C10: for every initial distribution P_0 and every random draw within the
state range, the first element of the list returned by Markov_chain equals 1:
it is the sum of a one-hot Multinomial(total_count = 1) sample, which is 1
regardless of which category was drawn, whereas each subsequent state appended
by transition is the sampled state index (the dot product of the state space
with the one-hot sample). -/
theorem markov_chain_first_state (P0 : List ℝ) (k i d : ℕ) (draws : List ℕ)
    (hi : i < k) (hd : d < k) :
    (markovChain P0 k i draws).head? = some 1 ∧ transition k d = d := by
  constructor
  · rw [markovChain, List.head?_cons, oneHot_sum_of_lt k i hi]
  · exact transition_of_lt k d hd

theorem markov_chain_first_state_witness :
    (markovChain [3 / 10, 2 / 5, 3 / 10] 3 1 [0]).head? = some 1
    ∧ transition 3 2 = 2 :=
  markov_chain_first_state [3 / 10, 2 / 5, 3 / 10] 3 1 2 [0]
    (by norm_num) (by norm_num)

end

end PyroTutorial
